import Mathlib

/-!
# libpsort: the public sort entry points of `psort.c`

`psort.c` is the frontend of a parallel LSD radix sort.  It instantiates one
kernel template (`psort_radix_intl.c`) for the key widths 16, 32, 64 and 128
bits and exposes `psort_full`, `psort_half` and `psort_partial`, each a
`switch` on `elem_size` that forwards to the kernel of the matching width.

The development has two layers.

* The entry points are embedded over an arbitrary memory type `Mem` and an
  arbitrary family of four kernels, and every call they make is recorded, so
  that the facts about dispatch hold whatever the kernels do.
* The kernel template is not part of `psort.c`.  It is modelled from the
  written design (byte extractor, per-thread histogram, cross-thread prefix
  sum, buffered scatter, digit pass orchestrator) on arrays of natural-number
  keys, and the sorting facts are proved about the entry points run on top of
  that model.
-/

namespace Psort

/-! ## The entry points of `psort.c` -/

/-- One invocation of a width kernel `psort_partialsort_parallel_<suffix>`:
the array contents it was handed and the four scalar arguments. -/
structure KernelCall (Mem : Type) where
  suffix : Nat
  arr : Mem
  len : Int
  num_threads : Int
  from_ : Int
  to_ : Int

/-- The four instantiations of the kernel template (`psort.c` lines 117-163),
each a function of the array contents, `len`, `num_threads`, `from` and `to`
that yields the array contents after the call. -/
structure Kernels (Mem : Type) where
  psort_partialsort_parallel_16 : Mem → Int → Int → Int → Int → Mem
  psort_partialsort_parallel_32 : Mem → Int → Int → Int → Int → Mem
  psort_partialsort_parallel_64 : Mem → Int → Int → Int → Int → Mem
  psort_partialsort_parallel_128 : Mem → Int → Int → Int → Int → Mem

/-- What a caller observes after an entry point returns: the `int` status, the
contents of its array, and the kernel invocations made on the way. -/
structure Outcome (Mem : Type) where
  status : Int
  arr : Mem
  calls : List (KernelCall Mem)

/-- The statement `psort_partialsort_parallel_16(arr, len, num_threads, from, to); return(0);`. -/
def call_16 {Mem : Type} (K : Kernels Mem) (arr : Mem) (len num_threads from_ to_ : Int) :
    Outcome Mem :=
  { status := 0
    arr := K.psort_partialsort_parallel_16 arr len num_threads from_ to_
    calls := [⟨16, arr, len, num_threads, from_, to_⟩] }

/-- The statement `psort_partialsort_parallel_32(arr, len, num_threads, from, to); return(0);`. -/
def call_32 {Mem : Type} (K : Kernels Mem) (arr : Mem) (len num_threads from_ to_ : Int) :
    Outcome Mem :=
  { status := 0
    arr := K.psort_partialsort_parallel_32 arr len num_threads from_ to_
    calls := [⟨32, arr, len, num_threads, from_, to_⟩] }

/-- The statement `psort_partialsort_parallel_64(arr, len, num_threads, from, to); return(0);`. -/
def call_64 {Mem : Type} (K : Kernels Mem) (arr : Mem) (len num_threads from_ to_ : Int) :
    Outcome Mem :=
  { status := 0
    arr := K.psort_partialsort_parallel_64 arr len num_threads from_ to_
    calls := [⟨64, arr, len, num_threads, from_, to_⟩] }

/-- The statement `psort_partialsort_parallel_128(arr, len, num_threads, from, to); return(0);`. -/
def call_128 {Mem : Type} (K : Kernels Mem) (arr : Mem) (len num_threads from_ to_ : Int) :
    Outcome Mem :=
  { status := 0
    arr := K.psort_partialsort_parallel_128 arr len num_threads from_ to_
    calls := [⟨128, arr, len, num_threads, from_, to_⟩] }

/-- The `default: return(-1);` arm: nothing is called, the array is not touched. -/
def unsupported {Mem : Type} (arr : Mem) : Outcome Mem :=
  { status := -1, arr := arr, calls := [] }

/-- `psort_full` (`psort.c` lines 168-182). -/
def psort_full {Mem : Type} (K : Kernels Mem) (arr : Mem)
    (len elem_size num_threads : Int) : Outcome Mem :=
  if elem_size = 2 then call_16 K arr len num_threads 0 2
  else if elem_size = 4 then call_32 K arr len num_threads 0 4
  else if elem_size = 8 then call_64 K arr len num_threads 0 8
  else if elem_size = 16 then call_128 K arr len num_threads 0 16
  else unsupported arr

/-- `psort_half` (`psort.c` lines 187-201). -/
def psort_half {Mem : Type} (K : Kernels Mem) (arr : Mem)
    (len elem_size num_threads : Int) : Outcome Mem :=
  if elem_size = 2 then call_16 K arr len num_threads 0 1
  else if elem_size = 4 then call_32 K arr len num_threads 0 2
  else if elem_size = 8 then call_64 K arr len num_threads 0 4
  else if elem_size = 16 then call_128 K arr len num_threads 0 8
  else unsupported arr

/-- `psort_partial` (`psort.c` lines 206-222). -/
def psort_partial {Mem : Type} (K : Kernels Mem) (arr : Mem)
    (len elem_size num_threads from_ to_ : Int) : Outcome Mem :=
  if elem_size = 2 then call_16 K arr len num_threads from_ to_
  else if elem_size = 4 then call_32 K arr len num_threads from_ to_
  else if elem_size = 8 then call_64 K arr len num_threads from_ to_
  else if elem_size = 16 then call_128 K arr len num_threads from_ to_
  else unsupported arr

/-- The element sizes the `switch` statements have a `case` for. -/
def supported (elem_size : Int) : Prop :=
  elem_size = 2 ∨ elem_size = 4 ∨ elem_size = 8 ∨ elem_size = 16

instance decidable_supported (elem_size : Int) : Decidable (supported elem_size) := by
  unfold supported; infer_instance

/-- The kernel instantiated for keys of `suffix` bits, if there is one. -/
def kernel_of {Mem : Type} (K : Kernels Mem) (suffix : Nat) :
    Option (Mem → Int → Int → Int → Int → Mem) :=
  if suffix = 16 then some K.psort_partialsort_parallel_16
  else if suffix = 32 then some K.psort_partialsort_parallel_32
  else if suffix = 64 then some K.psort_partialsort_parallel_64
  else if suffix = 128 then some K.psort_partialsort_parallel_128
  else none


/-! ## The kernel template `psort_radix_intl.c`, modelled from the design

Keys are natural numbers; an array is a list of keys.  Tables indexed by a
byte value or by a thread are functions on `Nat`.  The worker threads of one
stage write disjoint parts of the destination, so the stage is run thread by
thread, in thread order. -/

/-- The number of buckets of one digit pass, `WCR_OCC_SIZE` (`psort.c` line 33). -/
def WCR_OCC_SIZE : Nat := 1 <<< 8

/-- Modelled from the spec: the byte extractor of the kernel template
`psort_radix_intl.c`, which is not in `psort.c`.  `digit key d` is the `d`-th
byte of `key` in little-endian order, digit 0 being the least significant. -/
def digit (key d : Nat) : Nat := key / 256 ^ d % 256

/-- Modelled from the spec: the partition of `[0, len)` into `N` contiguous
slices whose sizes differ by at most one, fixed by `(len, N)`, of the kernel
template `psort_radix_intl.c`.  Slice `t` is
`[slice_start len N t, slice_start len N (t + 1))`. -/
def slice_start (len N t : Nat) : Nat := t * len / N

/-- Modelled from the spec: the contiguous part of the source that worker `t`
of `N` is assigned in a pass of the kernel template `psort_radix_intl.c`. -/
def slice (src : List Nat) (N t : Nat) : List Nat :=
  (src.drop (slice_start src.length N t)).take
    (slice_start src.length N (t + 1) - slice_start src.length N t)

/-- Modelled from the spec: the per-thread histogram of the kernel template
`psort_radix_intl.c`.  Starting from an all-zero table, every key of the slice
adds one to the entry of its byte at digit `d`.  The entries are 64-bit and
count at most `len < 2^63` keys, so they are not reduced. -/
def histogram (keys : List Nat) (d : Nat) : Nat → Nat :=
  keys.foldl (fun occ key => Function.update occ (digit key d) (occ (digit key d) + 1))
    (fun _ => 0)

/-- Modelled from the spec: the global starting table of the cross-thread
prefix sum of the kernel template `psort_radix_intl.c`,
`G[b] = Σ_{b' < b} Σ_{t < N} H[t][b']`. -/
def global_start (H : Nat → Nat → Nat) (N b : Nat) : Nat :=
  ((List.range b).map (fun b' => ((List.range N).map (fun t => H t b')).sum)).sum

/-- Modelled from the spec: the bucket offset table of the cross-thread prefix
sum of the kernel template `psort_radix_intl.c`,
`O[t][b] = G[b] + Σ_{t' < t} H[t'][b]`. -/
def bucket_offset (H : Nat → Nat → Nat) (N t b : Nat) : Nat :=
  global_start H N b + ((List.range t).map (fun t' => H t' b)).sum

/-- Modelled from the spec: the copy of a block of keys to `dst` starting at a
given offset, as the flushes of the kernel template `psort_radix_intl.c` do
it: sequential stores `dst[pos] = k₀, dst[pos + 1] = k₁, ...`. -/
def write_block : List Nat → Nat → List Nat → List Nat
  | dst, _, [] => dst
  | dst, pos, k :: ks => write_block (dst.set pos k) (pos + 1) ks

/-- Modelled from the spec: what one worker holds during the buffered scatter
of the kernel template `psort_radix_intl.c`: the destination array, its row
`O[t]` of the offset table, its write buffer `buf[bucket][slot]` and the 8-bit
fill counters `cnt[bucket]` (the `dst`, `buf` and `cnt` of
`struct psort_thread_context_s`, `psort.c` lines 73-82, with keys for slots). -/
structure ScatterState where
  dst : List Nat
  off : Nat → Nat
  buf : Nat → Nat → Nat
  cnt : Nat → Nat

/-- Modelled from the spec: the entries of `buf[b]` that a flush of the kernel
template `psort_radix_intl.c` copies: its first `c` slots. -/
def buffered (s : ScatterState) (b c : Nat) : List Nat :=
  (List.range c).map (s.buf b)

/-- Modelled from the spec: steps 1 and 2 of the buffered scatter of the kernel
template `psort_radix_intl.c` for one source key.  The key is written to
`buf[b][cnt[b]]` and the 8-bit counter is incremented; when the counter has
reached the block size `B`, all `B` entries of `buf[b]` are copied to `dst` at
`O[t][b]`, the offset advances by `B` and the counter is reset. -/
def scatter_key (B d : Nat) (s : ScatterState) (key : Nat) : ScatterState :=
  let b := digit key d
  let s1 : ScatterState :=
    { s with
      buf := Function.update s.buf b (Function.update (s.buf b) (s.cnt b) key)
      cnt := Function.update s.cnt b ((s.cnt b + 1) % 256) }
  if s1.cnt b = B then
    { s1 with
      dst := write_block s1.dst (s1.off b) (buffered s1 b B)
      off := Function.update s1.off b (s1.off b + B)
      cnt := Function.update s1.cnt b 0 }
  else s1

/-- Modelled from the spec: step 3 of the buffered scatter of the kernel
template `psort_radix_intl.c` for bucket `b`: the partial tail of `cnt[b]`
entries is copied to `dst` at `O[t][b]` and the offset advances by that many. -/
def flush_tail (s : ScatterState) (b : Nat) : ScatterState :=
  { s with
    dst := write_block s.dst (s.off b) (buffered s b (s.cnt b))
    off := Function.update s.off b (s.off b + s.cnt b) }

/-- Modelled from the spec: the buffered scatter of one worker of the kernel
template `psort_radix_intl.c`: a freshly zeroed buffer and counter, one
`scatter_key` per key of the slice in order, then the flush of every bucket's
tail. -/
def scatter (B d : Nat) (keys : List Nat) (off : Nat → Nat) (dst : List Nat) : ScatterState :=
  (List.range WCR_OCC_SIZE).foldl flush_tail
    (keys.foldl (scatter_key B d)
      { dst := dst, off := off, buf := fun _ _ => 0, cnt := fun _ => 0 })

/-- Modelled from the spec: one digit pass of the kernel template
`psort_radix_intl.c`: `N` histogram tasks over the slices of the source, the
prefix sum, then `N` scatter tasks from the source into the destination, here
one after the other in thread order. -/
def radix_pass (B N d : Nat) (src dst : List Nat) : List Nat :=
  let H : Nat → Nat → Nat := fun t => histogram (slice src N t) d
  (List.range N).foldl
    (fun dst t => (scatter B d (slice src N t) (bucket_offset H N t) dst).dst) dst

/-- Modelled from the spec: the array pair of the orchestrator of the kernel
template `psort_radix_intl.c`: the caller's array `A`, the scratch array `S`
of the same length, and which of the two is the current source. -/
structure ArrayPair where
  A : List Nat
  S : List Nat
  src_is_A : Bool

/-- Modelled from the spec: one iteration of the digit pass orchestrator of the
kernel template `psort_radix_intl.c`: a pass from the current source to the
current destination, then the swap. -/
def digit_pass (B N : Nat) (p : ArrayPair) (d : Nat) : ArrayPair :=
  if p.src_is_A then { p with S := radix_pass B N d p.A p.S, src_is_A := false }
  else { p with A := radix_pass B N d p.S p.A, src_is_A := true }

/-- Modelled from the spec: the passes of the orchestrator of the kernel
template `psort_radix_intl.c` for the digits `from, ..., to - 1`, in that
order, starting with the caller's array as source and a scratch array of the
same length. -/
def run_passes (B N : Nat) (from_ to_ : Int) (A : List Nat) : ArrayPair :=
  (List.range' from_.toNat (to_ - from_).toNat).foldl (digit_pass B N)
    { A := A, S := List.replicate A.length 0, src_is_A := true }

/-- Modelled from the spec: the end of the orchestrator of the kernel template
`psort_radix_intl.c`: if the sorted result is in `S` it is copied into `A`;
`A` is what the caller then holds. -/
def copy_back (p : ArrayPair) : List Nat :=
  if p.src_is_A then p.A else p.S

/-- Modelled from the spec: the kernel `psort_partialsort_parallel_<W>` that
`psort.c` obtains by including `psort_radix_intl.c`, a file that is not part
of the sources at hand.  `B` is the block size of the write buffer, which the
source fixes through the constant `WCR_BUF_SIZE` of a header.  The first `len`
keys of `arr` are sorted over the bytes `[from, to)` by `num_threads` workers;
`len == 0` and `from == to` return at once. -/
def psort_partialsort_parallel (B : Nat) (arr : List Nat)
    (len num_threads from_ to_ : Int) : List Nat :=
  if len = 0 then arr
  else if from_ = to_ then arr
  else copy_back (run_passes B num_threads.toNat from_ to_ (arr.take len.toNat))
    ++ arr.drop len.toNat

/-- Modelled from the spec: the four instantiations of the kernel template
`psort_radix_intl.c`.  They differ in the key type only, which the arrays of
natural-number keys do not record. -/
def radix_kernels (B : Nat) : Kernels (List Nat) :=
  { psort_partialsort_parallel_16 := psort_partialsort_parallel B
    psort_partialsort_parallel_32 := psort_partialsort_parallel B
    psort_partialsort_parallel_64 := psort_partialsort_parallel B
    psort_partialsort_parallel_128 := psort_partialsort_parallel B }

/-! ## Vocabulary of the statements and proofs -/

/-- The keys of `l` whose byte at digit `d` is `b`, in their order in `l`. -/
def with_digit (d b : Nat) (l : List Nat) : List Nat :=
  l.filter (fun k => digit k d = b)

/-- The concatenation `f 0 ++ f 1 ++ ... ++ f (m - 1)`. -/
def cat {α : Type} (f : Nat → List α) (m : Nat) : List α :=
  (List.range m).flatMap f

/-- The stable distribution of `l` into the 256 buckets of digit `d`, bucket
after bucket: the array a digit pass is meant to produce. -/
def bucket_sort (d : Nat) (l : List Nat) : List Nat :=
  cat (fun b => with_digit d b l) WCR_OCC_SIZE

/-- The number spelled by the `m` bytes of `key` at the little-endian positions
`from_, ..., from_ + m - 1`, the byte at `from_` least significant and the byte
at `from_ + m - 1` most significant. -/
def range_key (key from_ : Nat) : Nat → Nat
  | 0 => 0
  | m + 1 => range_key key from_ m + digit key (from_ + m) * 256 ^ m

/-- The array is non-decreasing when keys are compared by their bytes at the
positions `from_, ..., to_ - 1` only, byte `to_ - 1` most significant. -/
def sorted_over (from_ to_ : Nat) (l : List Nat) : Prop :=
  l.Pairwise (fun a b => range_key a from_ (to_ - from_) ≤ range_key b from_ (to_ - from_))

instance decidable_sorted_over (from_ to_ : Nat) (l : List Nat) :
    Decidable (sorted_over from_ to_ l) := by
  unfold sorted_over; infer_instance

/-- Bucket sorts by the digits of `ds`, one after the other. -/
def lsd_sort (ds : List Nat) (l : List Nat) : List Nat :=
  ds.foldl (fun l d => bucket_sort d l) l

/-- The state of one worker's scatter once the keys `p`, a prefix of its slice
`keys`, have been routed: per bucket, the keys stored in `dst` and those still
buffered are together the keys of `p` of that bucket, and `dst` agrees with the
reference array `E` on a set `Q` given beforehand and on everything stored so far. -/
structure ScatterInv (B d : Nat) (E : List Nat) (O0 : Nat → Nat) (keys p : List Nat)
    (Q : Nat → Prop) (s : ScatterState) : Prop where
  len : s.dst.length = E.length
  cnt_lt : ∀ b, s.cnt b < B
  off_ge : ∀ b, O0 b ≤ s.off b
  total : ∀ b, s.off b + s.cnt b = O0 b + (with_digit d b p).length
  buf_eq : ∀ b j, j < s.cnt b →
    (with_digit d b keys)[s.off b - O0 b + j]? = some (s.buf b j)
  agree : ∀ i, (Q i ∨ ∃ b, O0 b ≤ i ∧ i < s.off b) → s.dst[i]? = E[i]?

/-! ## Lemmas -/

theorem WCR_OCC_SIZE_eq : WCR_OCC_SIZE = 256 := by decide

theorem digit_lt (key d : Nat) : digit key d < 256 :=
  Nat.mod_lt _ (by norm_num)

/-! ### Concatenations indexed by a range -/

theorem cat_zero {α : Type} (f : Nat → List α) : cat f 0 = [] := rfl

theorem cat_succ {α : Type} (f : Nat → List α) (m : Nat) :
    cat f (m + 1) = cat f m ++ f m := by
  simp [cat, List.range_succ, List.flatMap_append]

theorem length_cat_succ {α : Type} (f : Nat → List α) (m : Nat) :
    (cat f (m + 1)).length = (cat f m).length + (f m).length := by
  rw [cat_succ, List.length_append]

theorem sum_length_eq_cat {α : Type} (f : Nat → List α) (m : Nat) :
    ((List.range m).map (fun k => (f k).length)).sum = (cat f m).length := by
  induction m with
  | zero => rfl
  | succ m ih => rw [List.range_succ, List.map_append, List.sum_append, ih, length_cat_succ]; simp

/-- Block `k` of a concatenation starts at the total length of the blocks before it. -/
theorem getElem?_cat {α : Type} (f : Nat → List α) (m k j : Nat) (hk : k < m)
    (hj : j < (f k).length) : (cat f m)[(cat f k).length + j]? = (f k)[j]? := by
  induction m with
  | zero => omega
  | succ m ih =>
    rw [cat_succ]
    rcases Nat.lt_succ_iff_lt_or_eq.mp hk with h | h
    · have h1 := ih h
      have h2 : (cat f k).length + j < (cat f m).length := by
        by_contra hc
        rw [List.getElem?_eq_none (Nat.le_of_not_lt hc), List.getElem?_eq_getElem hj] at h1
        exact absurd h1 (by simp)
      rw [List.getElem?_append_left h2, h1]
    · subst h
      rw [List.getElem?_append_right (Nat.le_add_right _ _), Nat.add_sub_cancel_left]

/-- Every position of a concatenation lies in one of its blocks. -/
theorem exists_block_of_lt_length_cat {α : Type} (f : Nat → List α) (m i : Nat)
    (hi : i < (cat f m).length) :
    ∃ k j, k < m ∧ j < (f k).length ∧ i = (cat f k).length + j := by
  induction m with
  | zero => simp [cat_zero] at hi
  | succ m ih =>
    rw [length_cat_succ] at hi
    by_cases h : i < (cat f m).length
    · obtain ⟨k, j, hk, hj, e⟩ := ih h
      exact ⟨k, j, Nat.lt_succ_of_lt hk, hj, e⟩
    · exact ⟨m, i - (cat f m).length, Nat.lt_succ_self m, by omega, by omega⟩

/-! ### Block stores -/

theorem length_write_block (ks : List Nat) :
    ∀ (dst : List Nat) (pos : Nat), (write_block dst pos ks).length = dst.length := by
  induction ks with
  | nil => intro dst pos; rfl
  | cons k ks ih => intro dst pos; rw [write_block, ih, List.length_set]

theorem getElem?_write_block (ks : List Nat) :
    ∀ (dst : List Nat) (pos i : Nat),
      (write_block dst pos ks)[i]? =
        if pos ≤ i ∧ i < pos + ks.length ∧ i < dst.length then ks[i - pos]? else dst[i]? := by
  induction ks with
  | nil =>
    intro dst pos i
    have : ¬ (pos ≤ i ∧ i < pos + ([] : List Nat).length ∧ i < dst.length) := by
      simp only [List.length_nil]; omega
    rw [if_neg this, write_block]
  | cons k ks ih =>
    intro dst pos i
    rw [write_block, ih, List.length_set, List.length_cons]
    by_cases h1 : pos + 1 ≤ i ∧ i < pos + 1 + ks.length ∧ i < dst.length
    · rw [if_pos h1, if_pos (by omega)]
      obtain ⟨h, _, _⟩ := h1
      have : i - pos = (i - (pos + 1)) + 1 := by omega
      rw [this, List.getElem?_cons_succ]
    · rw [if_neg h1, List.getElem?_set]
      by_cases h2 : pos = i
      · subst h2
        by_cases h3 : pos < dst.length
        · rw [if_pos rfl, if_pos h3, if_pos (by omega)]; simp
        · rw [if_pos rfl, if_neg h3, if_neg (by omega)]
          exact (List.getElem?_eq_none (Nat.le_of_not_lt h3)).symm
      · rw [if_neg h2, if_neg (by omega)]

/-- A block store that writes the values a reference array `E` has at the
written positions keeps every agreement with `E` and adds the written range. -/
theorem getElem?_write_block_of_agree (E dst ks : List Nat) (pos i : Nat)
    (hlen : dst.length = E.length)
    (hks : ∀ j, j < ks.length → E[pos + j]? = ks[j]?)
    (h : dst[i]? = E[i]? ∨ (pos ≤ i ∧ i < pos + ks.length)) :
    (write_block dst pos ks)[i]? = E[i]? := by
  rw [getElem?_write_block]
  by_cases hc : pos ≤ i ∧ i < pos + ks.length ∧ i < dst.length
  · rw [if_pos hc]
    have := hks (i - pos) (by omega)
    rw [← this]; congr 1; omega
  · rw [if_neg hc]
    rcases h with h | ⟨h1, h2⟩
    · exact h
    · have h3 : dst.length ≤ i := by omega
      have := hks (i - pos) (by omega)
      rw [show pos + (i - pos) = i by omega, List.getElem?_eq_none (hlen ▸ h3),
        List.getElem?_eq_getElem (by omega : i - pos < ks.length)] at this
      exact absurd this (by simp)

theorem with_digit_append (d b : Nat) (l₁ l₂ : List Nat) :
    with_digit d b (l₁ ++ l₂) = with_digit d b l₁ ++ with_digit d b l₂ := by
  simp [with_digit, List.filter_append]

theorem with_digit_singleton_self (d k : Nat) : with_digit d (digit k d) [k] = [k] := by
  simp [with_digit]

theorem with_digit_singleton_ne (d b k : Nat) (h : b ≠ digit k d) : with_digit d b [k] = [] := by
  simp [with_digit, Ne.symm h]

theorem getElem?_buffered (s : ScatterState) (b c j : Nat) (hj : j < c) :
    (buffered s b c)[j]? = some (s.buf b j) := by
  simp [buffered, List.getElem?_map, List.getElem?_range hj]

theorem length_buffered (s : ScatterState) (b c : Nat) : (buffered s b c).length = c := by
  simp [buffered]

theorem scatter_key_inv {B d : Nat} {E : List Nat} {O0 : Nat → Nat} {keys : List Nat}
    {Q : Nat → Prop} (hB : B < 256)
    (KF : ∀ b j, j < (with_digit d b keys).length →
      E[O0 b + j]? = (with_digit d b keys)[j]?)
    (p rest : List Nat) (k : Nat) (hkeys : keys = p ++ k :: rest) (s : ScatterState)
    (h : ScatterInv B d E O0 keys p Q s) :
    ScatterInv B d E O0 keys (p ++ [k]) Q (scatter_key B d s k) := by
  have hcnt := h.cnt_lt (digit k d)
  have hoff := h.off_ge (digit k d)
  have htot := h.total (digit k d)
  have hc : (s.cnt (digit k d) + 1) % 256 = s.cnt (digit k d) + 1 :=
    Nat.mod_eq_of_lt (by omega)
  have hlen_b : (with_digit d (digit k d) (p ++ [k])).length
      = (with_digit d (digit k d) p).length + 1 := by
    rw [with_digit_append, with_digit_singleton_self, List.length_append, List.length_singleton]
  have hlen_ne : ∀ b, b ≠ digit k d →
      (with_digit d b (p ++ [k])).length = (with_digit d b p).length := by
    intro b hb
    rw [with_digit_append, with_digit_singleton_ne d b k hb, List.append_nil]
  have hk_at : (with_digit d (digit k d) keys)[(with_digit d (digit k d) p).length]? = some k := by
    rw [hkeys, with_digit_append, List.getElem?_append_right (Nat.le_refl _), Nat.sub_self]
    rw [show k :: rest = [k] ++ rest from rfl, with_digit_append, with_digit_singleton_self]
    simp
  -- the buffer of the key's bucket after the store of step 1
  have hbuf : ∀ j, j < s.cnt (digit k d) + 1 →
      (with_digit d (digit k d) keys)[s.off (digit k d) - O0 (digit k d) + j]?
        = some (Function.update (s.buf (digit k d)) (s.cnt (digit k d)) k j) := by
    intro j hj
    by_cases e : j = s.cnt (digit k d)
    · subst e
      rw [Function.update_same, ← hk_at]; congr 1; omega
    · rw [Function.update_noteq e]
      exact h.buf_eq _ j (by omega)
  unfold scatter_key
  simp only [Function.update_same, hc]
  by_cases hfull : s.cnt (digit k d) + 1 = B
  · rw [if_pos hfull]
    refine ⟨?_, ?_, ?_, ?_, ?_, ?_⟩
    · simp only [length_write_block]; exact h.len
    · intro b
      by_cases e : b = digit k d
      · subst e; simp only [Function.update_same]; omega
      · simp only [Function.update_noteq e]; exact h.cnt_lt b
    · intro b
      by_cases e : b = digit k d
      · subst e; simp only [Function.update_same]; omega
      · simp only [Function.update_noteq e]; exact h.off_ge b
    · intro b
      by_cases e : b = digit k d
      · subst e; simp only [Function.update_same]; omega
      · simp only [Function.update_noteq e]; rw [hlen_ne b e]; exact h.total b
    · intro b j hj
      by_cases e : b = digit k d
      · subst e; simp only [Function.update_same] at hj; omega
      · simp only [Function.update_noteq e] at hj ⊢
        exact h.buf_eq b j hj
    · intro i hi
      apply getElem?_write_block_of_agree E _ _ _ i h.len
      · intro j hj
        rw [length_buffered] at hj
        rw [getElem?_buffered _ _ _ _ hj]
        simp only [Function.update_same]
        have h1 := hbuf j (by omega)
        have h2 : s.off (digit k d) - O0 (digit k d) + j
            < (with_digit d (digit k d) keys).length := by
          by_contra hcon
          rw [List.getElem?_eq_none (Nat.le_of_not_lt hcon)] at h1
          exact absurd h1 (by simp)
        rw [← h1, ← KF _ _ h2]; congr 1; omega
      · rw [length_buffered]
        rcases hi with hq | ⟨b, hb1, hb2⟩
        · exact Or.inl (h.agree i (Or.inl hq))
        · by_cases e : b = digit k d
          · subst e
            simp only [Function.update_same] at hb2
            by_cases hlt : i < s.off (digit k d)
            · exact Or.inl (h.agree i (Or.inr ⟨_, hb1, hlt⟩))
            · exact Or.inr ⟨by omega, by omega⟩
          · simp only [Function.update_noteq e] at hb2
            exact Or.inl (h.agree i (Or.inr ⟨b, hb1, hb2⟩))
  · rw [if_neg hfull]
    refine ⟨h.len, ?_, h.off_ge, ?_, ?_, h.agree⟩
    · intro b
      by_cases e : b = digit k d
      · subst e; simp only [Function.update_same]; omega
      · simp only [Function.update_noteq e]; exact h.cnt_lt b
    · intro b
      by_cases e : b = digit k d
      · subst e; simp only [Function.update_same]; omega
      · simp only [Function.update_noteq e]; rw [hlen_ne b e]; exact h.total b
    · intro b j hj
      by_cases e : b = digit k d
      · subst e
        simp only [Function.update_same] at hj ⊢
        exact hbuf j hj
      · simp only [Function.update_noteq e] at hj ⊢
        exact h.buf_eq b j hj

theorem foldl_scatter_key_inv {B d : Nat} {E : List Nat} {O0 : Nat → Nat} {keys : List Nat}
    {Q : Nat → Prop} (hB : B < 256)
    (KF : ∀ b j, j < (with_digit d b keys).length →
      E[O0 b + j]? = (with_digit d b keys)[j]?) :
    ∀ (rest p : List Nat) (s : ScatterState), keys = p ++ rest →
      ScatterInv B d E O0 keys p Q s →
      ScatterInv B d E O0 keys keys Q (rest.foldl (scatter_key B d) s) := by
  intro rest
  induction rest with
  | nil =>
    intro p s hkeys h
    rw [List.append_nil] at hkeys
    subst hkeys
    exact h
  | cons k rest ih =>
    intro p s hkeys h
    rw [List.foldl_cons]
    exact ih (p ++ [k]) _ (by rw [hkeys, List.append_assoc]; rfl)
      (scatter_key_inv hB KF p rest k hkeys s h)

theorem foldl_flush_tail_inv {B d : Nat} {E : List Nat} {O0 : Nat → Nat} {keys : List Nat}
    {Q : Nat → Prop}
    (KF : ∀ b j, j < (with_digit d b keys).length →
      E[O0 b + j]? = (with_digit d b keys)[j]?)
    (s : ScatterState) (h : ScatterInv B d E O0 keys keys Q s) (m : Nat) :
    ((List.range m).foldl flush_tail s).dst.length = E.length ∧
    ((List.range m).foldl flush_tail s).cnt = s.cnt ∧
    ((List.range m).foldl flush_tail s).buf = s.buf ∧
    (∀ b, ((List.range m).foldl flush_tail s).off b
      = if b < m then O0 b + (with_digit d b keys).length else s.off b) ∧
    (∀ i, (Q i ∨ ∃ b, O0 b ≤ i ∧ i < ((List.range m).foldl flush_tail s).off b) →
      ((List.range m).foldl flush_tail s).dst[i]? = E[i]?) := by
  induction m with
  | zero =>
    refine ⟨h.len, rfl, rfl, ?_, h.agree⟩
    intro b; simp
  | succ m ih =>
    rw [List.range_succ, List.foldl_append, List.foldl_cons, List.foldl_nil]
    generalize (List.range m).foldl flush_tail s = s1 at ih
    obtain ⟨ih1, ih2, ih3, ih4, ih5⟩ := ih
    have hoffm : s1.off m = s.off m := by rw [ih4 m, if_neg (Nat.lt_irrefl m)]
    have hbuffered : buffered s1 m (s1.cnt m) = buffered s m (s.cnt m) := by
      simp only [buffered, ih2, ih3]
    have htot := h.total m
    have hge := h.off_ge m
    unfold flush_tail
    simp only [hbuffered, hoffm, ih2, ih3]
    refine ⟨?_, trivial, trivial, ?_, ?_⟩
    · rw [length_write_block]; exact ih1
    · intro b
      by_cases e : b = m
      · subst e
        rw [Function.update_same, if_pos (Nat.lt_succ_self b)]; omega
      · rw [Function.update_noteq e, ih4 b]
        by_cases hlt : b < m
        · rw [if_pos hlt, if_pos (Nat.lt_succ_of_lt hlt)]
        · rw [if_neg hlt, if_neg (by omega)]
    · intro i hi
      apply getElem?_write_block_of_agree E _ _ _ i ih1
      · intro j hj
        rw [length_buffered] at hj
        rw [getElem?_buffered _ _ _ _ hj]
        have h1 := h.buf_eq m j hj
        have h2 : s.off m - O0 m + j < (with_digit d m keys).length := by
          by_contra hcon
          rw [List.getElem?_eq_none (Nat.le_of_not_lt hcon)] at h1
          exact absurd h1 (by simp)
        rw [ih3, ← h1, ← KF _ _ h2]; congr 1; omega
      · rw [length_buffered]
        rcases hi with hq | ⟨b, hb1, hb2⟩
        · exact Or.inl (ih5 i (Or.inl hq))
        · by_cases e : b = m
          · subst e
            rw [Function.update_same] at hb2
            by_cases hlt : i < s.off b
            · exact Or.inl (ih5 i (Or.inr ⟨b, hb1, by rw [hoffm]; exact hlt⟩))
            · exact Or.inr ⟨by omega, by omega⟩
          · rw [Function.update_noteq e] at hb2
            exact Or.inl (ih5 i (Or.inr ⟨b, hb1, hb2⟩))

/-- The buffered scatter of one worker stores every key of its slice at the
place the reference array `E` has it, and disturbs no earlier agreement. -/
theorem scatter_agree {B d : Nat} {E : List Nat} {O0 : Nat → Nat} {keys : List Nat}
    {Q : Nat → Prop} (hB0 : 0 < B) (hB : B < 256)
    (KF : ∀ b j, j < (with_digit d b keys).length →
      E[O0 b + j]? = (with_digit d b keys)[j]?)
    (dst : List Nat) (hlen : dst.length = E.length) (hQ : ∀ i, Q i → dst[i]? = E[i]?) :
    (scatter B d keys O0 dst).dst.length = E.length ∧
    ∀ i, (Q i ∨ ∃ b, b < 256 ∧ O0 b ≤ i ∧ i < O0 b + (with_digit d b keys).length) →
      (scatter B d keys O0 dst).dst[i]? = E[i]? := by
  have h0 : ScatterInv B d E O0 keys [] Q
      { dst := dst, off := O0, buf := fun _ _ => 0, cnt := fun _ => 0 } := by
    refine ⟨hlen, fun _ => hB0, fun _ => Nat.le_refl _, ?_, ?_, ?_⟩
    · intro b; simp [with_digit]
    · intro b j hj; exact absurd hj (Nat.not_lt_zero _)
    · intro i hi
      rcases hi with hq | ⟨b, hb1, hb2⟩
      · exact hQ i hq
      · exact absurd hb2 (Nat.not_lt.mpr hb1)
  have h1 := foldl_scatter_key_inv hB KF keys [] _ rfl h0
  obtain ⟨f1, -, -, f4, f5⟩ := foldl_flush_tail_inv KF _ h1 WCR_OCC_SIZE
  refine ⟨f1, ?_⟩
  intro i hi
  apply f5
  rcases hi with hq | ⟨b, hb, hb1, hb2⟩
  · exact Or.inl hq
  · refine Or.inr ⟨b, hb1, ?_⟩
    rw [f4 b, if_pos (by rw [WCR_OCC_SIZE_eq]; exact hb)]
    exact hb2

/-! ### Histogram, slices and prefix sum -/

theorem foldl_histogram (d b : Nat) (keys : List Nat) :
    ∀ occ : Nat → Nat,
      keys.foldl (fun occ key => Function.update occ (digit key d) (occ (digit key d) + 1)) occ b
        = occ b + (with_digit d b keys).length := by
  induction keys with
  | nil => intro occ; simp [with_digit]
  | cons k ks ih =>
    intro occ
    rw [List.foldl_cons, ih, show k :: ks = [k] ++ ks from rfl, with_digit_append,
      List.length_append]
    by_cases e : b = digit k d
    · subst e
      rw [Function.update_same, with_digit_singleton_self, List.length_singleton]; omega
    · rw [Function.update_noteq e, with_digit_singleton_ne d b k e, List.length_nil]; omega

/-- The histogram counts, per byte value, the keys of the slice with that byte. -/
theorem histogram_eq (keys : List Nat) (d b : Nat) :
    histogram keys d b = (with_digit d b keys).length := by
  rw [histogram, foldl_histogram, Nat.zero_add]

theorem slice_start_mono (len N t : Nat) : slice_start len N t ≤ slice_start len N (t + 1) :=
  Nat.div_le_div_right (Nat.mul_le_mul_right len (Nat.le_succ t))

/-- The slices of a pass differ in size by at most one key. -/
theorem slice_size (len N t : Nat) (hN : 0 < N) :
    len / N ≤ slice_start len N (t + 1) - slice_start len N t ∧
    slice_start len N (t + 1) - slice_start len N t ≤ len / N + 1 := by
  unfold slice_start
  rw [Nat.add_mul, Nat.one_mul, Nat.add_div hN]
  generalize t * len / N = a
  generalize len / N = q
  split_ifs <;> omega

theorem cat_slice (src : List Nat) (N m : Nat) :
    cat (slice src N) m = src.take (slice_start src.length N m) := by
  induction m with
  | zero => simp [cat_zero, slice_start]
  | succ m ih =>
    rw [cat_succ, ih, slice, ← List.take_add]
    congr 1
    have := slice_start_mono src.length N m
    omega

/-- The slices of the workers, in thread order, make up the source. -/
theorem cat_slice_all (src : List Nat) (N : Nat) (hN : 0 < N) : cat (slice src N) N = src := by
  rw [cat_slice, slice_start, Nat.mul_div_cancel_left _ hN, List.take_length]

theorem with_digit_cat (d b : Nat) (f : Nat → List Nat) (m : Nat) :
    with_digit d b (cat f m) = cat (fun t => with_digit d b (f t)) m := by
  induction m with
  | zero => rfl
  | succ m ih => rw [cat_succ, cat_succ, with_digit_append, ih]

theorem with_digit_eq_cat_slice (d b : Nat) (src : List Nat) (N : Nat) (hN : 0 < N) :
    with_digit d b src = cat (fun t => with_digit d b (slice src N t)) N := by
  rw [← with_digit_cat, cat_slice_all src N hN]

theorem global_start_eq (d : Nat) (src : List Nat) (N b : Nat) (hN : 0 < N) :
    global_start (fun t => histogram (slice src N t) d) N b
      = (cat (fun b' => with_digit d b' src) b).length := by
  unfold global_start
  simp only [histogram_eq]
  rw [← sum_length_eq_cat]
  congr 1
  apply List.map_congr_left
  intro b' _
  rw [sum_length_eq_cat (fun t => with_digit d b' (slice src N t)) N,
    ← with_digit_eq_cat_slice d b' src N hN]

theorem bucket_offset_eq (d : Nat) (src : List Nat) (N t b : Nat) (hN : 0 < N) :
    bucket_offset (fun t => histogram (slice src N t) d) N t b
      = (cat (fun b' => with_digit d b' src) b).length
        + (cat (fun t' => with_digit d b (slice src N t')) t).length := by
  unfold bucket_offset
  rw [global_start_eq d src N b hN]
  simp only [histogram_eq]
  rw [sum_length_eq_cat (fun t' => with_digit d b (slice src N t')) t]

/-! ### The bucket sort a pass computes -/

theorem count_cat_with_digit (d : Nat) (l : List Nat) (a m : Nat) :
    (cat (fun b => with_digit d b l) m).count a = if digit a d < m then l.count a else 0 := by
  induction m with
  | zero => simp [cat_zero]
  | succ m ih =>
    rw [cat_succ, List.count_append, ih]
    by_cases e : digit a d = m
    · have h1 : (with_digit d m l).count a = l.count a := by
        unfold with_digit
        rw [List.count_filter]
        simpa using e
      rw [h1, if_neg (by omega), if_pos (by omega)]; omega
    · have h1 : (with_digit d m l).count a = 0 := by
        unfold with_digit
        rw [List.count_eq_zero]
        intro hmem
        exact e (by simpa using (List.mem_filter.mp hmem).2)
      rw [h1]
      by_cases hlt : digit a d < m
      · rw [if_pos hlt, if_pos (by omega)]; rfl
      · rw [if_neg hlt, if_neg (by omega)]

/-- A bucket sort rearranges the keys. -/
theorem bucket_sort_perm (d : Nat) (l : List Nat) : (bucket_sort d l).Perm l := by
  rw [List.perm_iff_count]
  intro a
  rw [bucket_sort, count_cat_with_digit, WCR_OCC_SIZE_eq, if_pos (digit_lt a d)]

theorem length_bucket_sort (d : Nat) (l : List Nat) : (bucket_sort d l).length = l.length :=
  (bucket_sort_perm d l).length_eq

/-! ### One digit pass -/

/-- Worker `t` of a pass is due to store its keys of bucket `b` where the
bucket sort of the source has them. -/
theorem getElem?_bucket_sort_at_offset (d : Nat) (src : List Nat) (N t : Nat) (hN : 0 < N)
    (ht : t < N) (b j : Nat) (hj : j < (with_digit d b (slice src N t)).length) :
    (bucket_sort d src)[bucket_offset (fun t => histogram (slice src N t) d) N t b + j]?
      = (with_digit d b (slice src N t))[j]? := by
  have hb : b < 256 := by
    have hmem := List.getElem_mem hj
    have h2 := (List.mem_filter.mp hmem).2
    have h3 := of_decide_eq_true h2
    rw [← h3]; exact digit_lt _ _
  have inner := getElem?_cat (fun t' => with_digit d b (slice src N t')) N t j ht hj
  have hlt : (cat (fun t' => with_digit d b (slice src N t')) t).length + j
      < (with_digit d b src).length := by
    rw [with_digit_eq_cat_slice d b src N hN]
    by_contra hcon
    rw [List.getElem?_eq_none (Nat.le_of_not_lt hcon), List.getElem?_eq_getElem hj] at inner
    exact absurd inner (by simp)
  have outer := getElem?_cat (fun b' => with_digit d b' src) 256 b _ hb hlt
  rw [bucket_offset_eq d src N t b hN, bucket_sort, WCR_OCC_SIZE_eq, Nat.add_assoc, outer,
    ← inner, ← with_digit_eq_cat_slice d b src N hN]

/-- Every position of the destination is the place of some key of some worker. -/
theorem exists_offset_of_lt (d : Nat) (src : List Nat) (N : Nat) (hN : 0 < N) (i : Nat)
    (hi : i < src.length) :
    ∃ t, t < N ∧ ∃ b, b < 256 ∧
      bucket_offset (fun t => histogram (slice src N t) d) N t b ≤ i ∧
      i < bucket_offset (fun t => histogram (slice src N t) d) N t b
        + (with_digit d b (slice src N t)).length := by
  have hi2 : i < (cat (fun b' => with_digit d b' src) 256).length := by
    have := length_bucket_sort d src
    rw [bucket_sort, WCR_OCC_SIZE_eq] at this
    rw [this]; exact hi
  obtain ⟨b, j, hb, hj, e1⟩ := exists_block_of_lt_length_cat _ 256 i hi2
  have hj2 : j < (cat (fun t' => with_digit d b (slice src N t')) N).length := by
    rw [← with_digit_eq_cat_slice d b src N hN]; exact hj
  obtain ⟨t, j2, ht, hj3, e2⟩ := exists_block_of_lt_length_cat _ N j hj2
  refine ⟨t, ht, b, hb, ?_, ?_⟩
  · rw [bucket_offset_eq d src N t b hN]; omega
  · rw [bucket_offset_eq d src N t b hN]; omega

theorem radix_pass_agree (B N d : Nat) (src dst : List Nat) (hB0 : 0 < B) (hB : B < 256)
    (hN : 0 < N) (hlen : dst.length = src.length) (m : Nat) (hm : m ≤ N) :
    ((List.range m).foldl (fun dst t =>
        (scatter B d (slice src N t)
          (bucket_offset (fun t => histogram (slice src N t) d) N t) dst).dst) dst).length
      = (bucket_sort d src).length ∧
    ∀ i, (∃ t, t < m ∧ ∃ b, b < 256 ∧
        bucket_offset (fun t => histogram (slice src N t) d) N t b ≤ i ∧
        i < bucket_offset (fun t => histogram (slice src N t) d) N t b
          + (with_digit d b (slice src N t)).length) →
      ((List.range m).foldl (fun dst t =>
        (scatter B d (slice src N t)
          (bucket_offset (fun t => histogram (slice src N t) d) N t) dst).dst) dst)[i]?
        = (bucket_sort d src)[i]? := by
  induction m with
  | zero =>
    refine ⟨by rw [length_bucket_sort]; exact hlen, ?_⟩
    rintro i ⟨t, ht, -⟩
    exact absurd ht (Nat.not_lt_zero t)
  | succ m ih =>
    obtain ⟨ih1, ih2⟩ := ih (Nat.le_of_succ_le hm)
    rw [List.range_succ, List.foldl_append, List.foldl_cons, List.foldl_nil]
    have key := scatter_agree hB0 hB
      (getElem?_bucket_sort_at_offset d src N m hN (Nat.lt_of_succ_le hm)) _ ih1 ih2
    refine ⟨key.1, ?_⟩
    rintro i ⟨t, ht, b, hb, h1, h2⟩
    apply key.2
    rcases Nat.lt_succ_iff_lt_or_eq.mp ht with h | h
    · exact Or.inl ⟨t, h, b, hb, h1, h2⟩
    · subst h
      exact Or.inr ⟨b, hb, h1, h2⟩

/-- A digit pass with at least one worker leaves in the destination the bucket
sort of the source by that digit. -/
theorem radix_pass_eq (B N d : Nat) (src dst : List Nat) (hB0 : 0 < B) (hB : B < 256)
    (hN : 0 < N) (hlen : dst.length = src.length) :
    radix_pass B N d src dst = bucket_sort d src := by
  obtain ⟨h1, h2⟩ := radix_pass_agree B N d src dst hB0 hB hN hlen N (Nat.le_refl N)
  unfold radix_pass
  apply List.ext_getElem?
  intro i
  by_cases hi : i < src.length
  · exact h2 i (exists_offset_of_lt d src N hN i hi)
  · rw [List.getElem?_eq_none (by rw [h1, length_bucket_sort]; omega),
      List.getElem?_eq_none (by rw [length_bucket_sort]; omega)]

/-! ### Least significant digit first -/

theorem range_key_lt (key from_ m : Nat) : range_key key from_ m < 256 ^ m := by
  induction m with
  | zero => simp [range_key]
  | succ m ih =>
    have h1 := digit_lt key (from_ + m)
    have h2 : digit key (from_ + m) * 256 ^ m ≤ 255 * 256 ^ m :=
      Nat.mul_le_mul_right _ (by omega)
    rw [range_key, pow_succ]
    omega

/-- The bytes `[0, m)` of a key that fits in `m` bytes spell the key. -/
theorem range_key_zero_eq_mod (key m : Nat) : range_key key 0 m = key % 256 ^ m := by
  induction m with
  | zero => simp [range_key, Nat.mod_one]
  | succ m ih =>
    rw [range_key, ih, Nat.mod_pow_succ, digit, Nat.zero_add, Nat.mul_comm]

/-- A stable bucket sort by the next digit extends the sorted byte range by one. -/
theorem bucket_sort_sorted (from_ m : Nat) (l : List Nat)
    (h : l.Pairwise (fun a b => range_key a from_ m ≤ range_key b from_ m)) :
    (bucket_sort (from_ + m) l).Pairwise
      (fun a b => range_key a from_ (m + 1) ≤ range_key b from_ (m + 1)) := by
  unfold bucket_sort cat
  rw [List.pairwise_flatMap]
  constructor
  · intro b _
    have hsub : (with_digit (from_ + m) b l).Pairwise
        (fun a b => range_key a from_ m ≤ range_key b from_ m) :=
      h.sublist (List.filter_sublist l)
    refine hsub.imp_of_mem ?_
    intro x y hx hy hxy
    have dx : digit x (from_ + m) = b := of_decide_eq_true (List.mem_filter.mp hx).2
    have dy : digit y (from_ + m) = b := of_decide_eq_true (List.mem_filter.mp hy).2
    simp only [range_key, dx, dy]
    omega
  · refine (List.pairwise_lt_range WCR_OCC_SIZE).imp ?_
    intro b₁ b₂ hlt x hx y hy
    have dx : digit x (from_ + m) = b₁ := of_decide_eq_true (List.mem_filter.mp hx).2
    have dy : digit y (from_ + m) = b₂ := of_decide_eq_true (List.mem_filter.mp hy).2
    have hx1 := range_key_lt x from_ m
    have h3 : (b₁ + 1) * 256 ^ m ≤ b₂ * 256 ^ m := Nat.mul_le_mul_right _ hlt
    simp only [range_key, dx, dy]
    rw [Nat.add_mul, Nat.one_mul] at h3
    omega

theorem lsd_sort_append (ds₁ ds₂ : List Nat) (l : List Nat) :
    lsd_sort (ds₁ ++ ds₂) l = lsd_sort ds₂ (lsd_sort ds₁ l) := by
  simp [lsd_sort, List.foldl_append]

theorem lsd_sort_perm (ds : List Nat) : ∀ l : List Nat, (lsd_sort ds l).Perm l := by
  induction ds with
  | nil => intro l; exact List.Perm.refl l
  | cons d ds ih =>
    intro l
    exact (ih (bucket_sort d l)).trans (bucket_sort_perm d l)

/-- Bucket sorts by the digits `from_, ..., from_ + m - 1`, least significant
first, sort the array over those bytes. -/
theorem lsd_sort_sorted (from_ m : Nat) (l : List Nat) :
    (lsd_sort (List.range' from_ m) l).Pairwise
      (fun a b => range_key a from_ m ≤ range_key b from_ m) := by
  induction m with
  | zero => exact List.pairwise_of_forall (fun _ _ => Nat.le_refl _)
  | succ m ih =>
    rw [List.range'_1_concat, lsd_sort_append]
    exact bucket_sort_sorted from_ m _ ih

/-! ### The orchestrator and the kernel -/

theorem digit_pass_spec (B N : Nat) (p : ArrayPair) (d : Nat) (hB0 : 0 < B) (hB : B < 256)
    (hN : 0 < N) (hlen : p.S.length = p.A.length) :
    copy_back (digit_pass B N p d) = bucket_sort d (copy_back p) ∧
    (digit_pass B N p d).S.length = (digit_pass B N p d).A.length := by
  unfold digit_pass copy_back
  cases hsrc : p.src_is_A
  · simp only [Bool.false_eq_true, if_false, if_true]
    rw [radix_pass_eq B N d p.S p.A hB0 hB hN hlen.symm]
    exact ⟨rfl, by rw [length_bucket_sort]⟩
  · simp only [Bool.false_eq_true, if_false, if_true]
    rw [radix_pass_eq B N d p.A p.S hB0 hB hN hlen]
    exact ⟨rfl, by rw [length_bucket_sort]⟩

theorem foldl_digit_pass_spec (B N : Nat) (hB0 : 0 < B) (hB : B < 256) (hN : 0 < N)
    (ds : List Nat) :
    ∀ p : ArrayPair, p.S.length = p.A.length →
      copy_back (ds.foldl (digit_pass B N) p) = lsd_sort ds (copy_back p) := by
  induction ds with
  | nil => intro p _; rfl
  | cons d ds ih =>
    intro p hlen
    obtain ⟨h1, h2⟩ := digit_pass_spec B N p d hB0 hB hN hlen
    rw [List.foldl_cons, ih _ h2, h1]
    rfl

/-- After its passes the orchestrator hands back the least-significant-digit
bucket sort of the caller's keys over the requested digits. -/
theorem copy_back_run_passes (B N : Nat) (from_ to_ : Int) (A : List Nat) (hB0 : 0 < B)
    (hB : B < 256) (hN : 0 < N) :
    copy_back (run_passes B N from_ to_ A)
      = lsd_sort (List.range' from_.toNat (to_ - from_).toNat) A := by
  unfold run_passes
  exact foldl_digit_pass_spec B N hB0 hB hN _ ⟨A, List.replicate A.length 0, true⟩
    (List.length_replicate _ _)

theorem kernel_perm (B : Nat) (arr : List Nat) (len num_threads from_ to_ : Int)
    (hB0 : 0 < B) (hB : B < 256) (hN : 1 ≤ num_threads) :
    (psort_partialsort_parallel B arr len num_threads from_ to_).Perm arr := by
  unfold psort_partialsort_parallel
  split_ifs
  · exact List.Perm.refl _
  · exact List.Perm.refl _
  · rw [copy_back_run_passes B _ from_ to_ _ hB0 hB (by omega)]
    have h := (lsd_sort_perm (List.range' from_.toNat (to_ - from_).toNat)
      (arr.take len.toNat)).append_right (arr.drop len.toNat)
    rwa [List.take_append_drop] at h

theorem kernel_sorted (B : Nat) (arr : List Nat) (len num_threads from_ to_ : Int)
    (hB0 : 0 < B) (hB : B < 256) (hN : 1 ≤ num_threads) (hlen : (arr.length : Int) = len)
    (hfrom : 0 ≤ from_) (hto : from_ ≤ to_) :
    sorted_over from_.toNat to_.toNat
      (psort_partialsort_parallel B arr len num_threads from_ to_) := by
  unfold psort_partialsort_parallel sorted_over
  split_ifs with h1 h2
  · have : arr = [] := List.length_eq_zero.mp (by omega)
    rw [this]; exact List.Pairwise.nil
  · subst h2
    rw [Nat.sub_self]
    exact List.pairwise_of_forall (fun _ _ => Nat.le_refl _)
  · rw [copy_back_run_passes B _ from_ to_ _ hB0 hB (by omega)]
    have e1 : len.toNat = arr.length := by omega
    have e2 : (to_ - from_).toNat = to_.toNat - from_.toNat := by omega
    rw [e1, List.take_length, List.drop_length, List.append_nil, e2]
    exact lsd_sort_sorted _ _ _

theorem radix_partial_outcome (B : Nat) (arr : List Nat)
    (len elem_size num_threads from_ to_ : Int) (h : supported elem_size) :
    ( psort_partial (radix_kernels B) arr len elem_size num_threads from_ to_).status = 0 ∧
    ( psort_partial (radix_kernels B) arr len elem_size num_threads from_ to_).arr
      = psort_partialsort_parallel B arr len num_threads from_ to_ := by
  rcases h with h | h | h | h <;> subst h <;> exact ⟨rfl, rfl⟩

theorem radix_full_outcome (B : Nat) (arr : List Nat)
    (len elem_size num_threads : Int) (h : supported elem_size) :
    (psort_full (radix_kernels B) arr len elem_size num_threads).status = 0 ∧
    (psort_full (radix_kernels B) arr len elem_size num_threads).arr
      = psort_partialsort_parallel B arr len num_threads 0 elem_size := by
  rcases h with h | h | h | h <;> subst h <;> exact ⟨rfl, rfl⟩

theorem radix_half_outcome (B : Nat) (arr : List Nat)
    (len elem_size num_threads : Int) (h : supported elem_size) :
    (psort_half (radix_kernels B) arr len elem_size num_threads).status = 0 ∧
    (psort_half (radix_kernels B) arr len elem_size num_threads).arr
      = psort_partialsort_parallel B arr len num_threads 0 (Int.tdiv elem_size 2) := by
  rcases h with h | h | h | h <;> subst h <;> exact ⟨rfl, rfl⟩

/-- An array of keys that fit in `m` bytes and is sorted over the bytes
`[0, m)` is in numeric order. -/
theorem sorted_of_sorted_over (m : Nat) (l : List Nat) (hkeys : ∀ k ∈ l, k < 256 ^ m)
    (h : sorted_over 0 m l) : l.Sorted (· ≤ ·) := by
  unfold sorted_over at h
  refine h.imp_of_mem ?_
  intro a b ha hb hab
  rw [Nat.sub_zero, range_key_zero_eq_mod, range_key_zero_eq_mod,
    Nat.mod_eq_of_lt (hkeys a ha), Nat.mod_eq_of_lt (hkeys b hb)] at hab
  exact hab

theorem radix_full_sorted (B : Nat) (arr : List Nat) (len elem_size num_threads : Int)
    (hB0 : 0 < B) (hB : B < 256) (hes : supported elem_size)
    (hlen : (arr.length : Int) = len) (hkeys : ∀ k ∈ arr, k < 256 ^ elem_size.toNat)
    (hnt : 1 ≤ num_threads) :
    (psort_full (radix_kernels B) arr len elem_size num_threads).arr.Sorted (· ≤ ·) := by
  rw [(radix_full_outcome B arr len elem_size num_threads hes).2]
  have hpos : (0 : Int) ≤ elem_size := by rcases hes with h | h | h | h <;> omega
  have hperm := kernel_perm B arr len num_threads 0 elem_size hB0 hB hnt
  have hs := kernel_sorted B arr len num_threads 0 elem_size hB0 hB hnt hlen (Int.le_refl 0) hpos
  exact sorted_of_sorted_over elem_size.toNat _ (fun k hk => hkeys k (hperm.subset hk)) hs

/-! ### End-to-end scenarios of the design, computed on the model -/

set_option maxRecDepth 1000000 in
/-- An empty 16-bit array stays empty. -/
theorem scenario_1 : (psort_full (radix_kernels 8) [] 0 2 4).arr = [] := by decide

set_option maxRecDepth 1000000 in
/-- A single 32-bit key, four threads. -/
theorem scenario_2 : (psort_full (radix_kernels 8) [42] 1 4 4).arr = [42] := by decide

set_option maxRecDepth 1000000 in
/-- Four 16-bit keys, two threads. -/
theorem scenario_3 :
    (psort_full (radix_kernels 8) [0x0201, 0x0102, 0xFFFF, 0x0000] 4 2 2).arr
      = [0x0000, 0x0102, 0x0201, 0xFFFF] := by decide

set_option maxRecDepth 1000000 in
/-- Four 16-bit keys sorted over byte 0 alone: keys with equal byte 0 keep their order. -/
theorem scenario_5 :
    ( psort_partial (radix_kernels 8) [0x0100, 0x0001, 0x0101, 0x0000] 4 2 1 0 1).arr
      = [0x0100, 0x0000, 0x0001, 0x0101] := by decide

/-! ## The claims about dispatch -/

/-- C1: each of `psort_full`, `psort_half` and `psort_partial` returns status 0
when `elem_size` is one of 2, 4, 8, 16 and status -1 for every other
`elem_size`, whatever the array, `len`, `num_threads`, `from`, `to` and the
kernels are; no other status is returned. -/
theorem status_of_entry_points {Mem : Type} (K : Kernels Mem) (arr : Mem)
    (len elem_size num_threads from_ to_ : Int) :
    (psort_full K arr len elem_size num_threads).status
      = (if supported elem_size then 0 else -1) ∧
    (psort_half K arr len elem_size num_threads).status
      = (if supported elem_size then 0 else -1) ∧
    ( psort_partial K arr len elem_size num_threads from_ to_).status
      = (if supported elem_size then 0 else -1) := by
  unfold psort_full psort_half psort_partial supported
  by_cases h2 : elem_size = 2
  · simp [h2, call_16]
  by_cases h4 : elem_size = 4
  · simp [h4, call_32]
  by_cases h8 : elem_size = 8
  · simp [h8, call_64]
  by_cases h16 : elem_size = 16
  · simp [h16, call_128]
  simp [h2, h4, h8, h16, unsupported]

/-- C2: for an `elem_size` outside {2, 4, 8, 16} each of the three entry
points returns -1, invokes no kernel, and leaves the caller's array as it was. -/
theorem unsupported_size_leaves_array {Mem : Type} (K : Kernels Mem) (arr : Mem)
    (len elem_size num_threads from_ to_ : Int) (h : ¬ supported elem_size) :
    ((psort_full K arr len elem_size num_threads).status = -1 ∧
      (psort_full K arr len elem_size num_threads).calls = [] ∧
      (psort_full K arr len elem_size num_threads).arr = arr) ∧
    ((psort_half K arr len elem_size num_threads).status = -1 ∧
      (psort_half K arr len elem_size num_threads).calls = [] ∧
      (psort_half K arr len elem_size num_threads).arr = arr) ∧
    (( psort_partial K arr len elem_size num_threads from_ to_).status = -1 ∧
      ( psort_partial K arr len elem_size num_threads from_ to_).calls = [] ∧
      ( psort_partial K arr len elem_size num_threads from_ to_).arr = arr) := by
  unfold supported at h
  have h2 : ¬ elem_size = 2 := fun e => h (Or.inl e)
  have h4 : ¬ elem_size = 4 := fun e => h (Or.inr (Or.inl e))
  have h8 : ¬ elem_size = 8 := fun e => h (Or.inr (Or.inr (Or.inl e)))
  have h16 : ¬ elem_size = 16 := fun e => h (Or.inr (Or.inr (Or.inr e)))
  simp [psort_full, psort_half, psort_partial, h2, h4, h8, h16, unsupported]

/-- The scenario of C2: a 32-bit array sorted with `elem_size = 3` comes back
unchanged with status -1. -/
theorem unsupported_size_leaves_array_witness :
    (¬ supported 3) ∧
    ((psort_full (radix_kernels 8) [7, 3, 5] 3 3 4).status = -1 ∧
      (psort_full (radix_kernels 8) [7, 3, 5] 3 3 4).calls = [] ∧
      (psort_full (radix_kernels 8) [7, 3, 5] 3 3 4).arr = [7, 3, 5]) ∧
    ((psort_half (radix_kernels 8) [7, 3, 5] 3 3 4).status = -1 ∧
      (psort_half (radix_kernels 8) [7, 3, 5] 3 3 4).calls = [] ∧
      (psort_half (radix_kernels 8) [7, 3, 5] 3 3 4).arr = [7, 3, 5]) ∧
    (( psort_partial (radix_kernels 8) [7, 3, 5] 3 3 4 0 3).status = -1 ∧
      ( psort_partial (radix_kernels 8) [7, 3, 5] 3 3 4 0 3).calls = [] ∧
      ( psort_partial (radix_kernels 8) [7, 3, 5] 3 3 4 0 3).arr = [7, 3, 5]) :=
  ⟨by decide,
    unsupported_size_leaves_array (radix_kernels 8) [7, 3, 5] 3 3 4 0 3 (by decide)⟩

/-- C5: for every array, `len`, `num_threads` and `elem_size`, supported or
not, `psort_full(arr, len, elem_size, num_threads)` has the same status, the
same final array and the same kernel invocation as
`psort_partial(arr, len, elem_size, num_threads, 0, elem_size)`. -/
theorem psort_full_eq_partial {Mem : Type} (K : Kernels Mem) (arr : Mem)
    (len elem_size num_threads : Int) :
    psort_full K arr len elem_size num_threads
      = psort_partial K arr len elem_size num_threads 0 elem_size := by
  unfold psort_full psort_partial
  by_cases h2 : elem_size = 2
  · simp [h2]
  by_cases h4 : elem_size = 4
  · simp [h4]
  by_cases h8 : elem_size = 8
  · simp [h8]
  by_cases h16 : elem_size = 16
  · simp [h16]
  simp [h2, h4, h8, h16]

/-- C6: for every array, `len`, `num_threads` and `elem_size`, supported or
not, `psort_half(arr, len, elem_size, num_threads)` has the same status, the
same final array and the same kernel invocation as
`psort_partial(arr, len, elem_size, num_threads, 0, elem_size / 2)`, the
division being that of C on `int64_t`. -/
theorem psort_half_eq_partial {Mem : Type} (K : Kernels Mem) (arr : Mem)
    (len elem_size num_threads : Int) :
    psort_half K arr len elem_size num_threads
      = psort_partial K arr len elem_size num_threads 0 (Int.tdiv elem_size 2) := by
  unfold psort_half psort_partial
  by_cases h2 : elem_size = 2
  · subst h2; rfl
  by_cases h4 : elem_size = 4
  · subst h4; rfl
  by_cases h8 : elem_size = 8
  · subst h8; rfl
  by_cases h16 : elem_size = 16
  · subst h16; rfl
  simp [h2, h4, h8, h16]

/-- C8: for `elem_size` in {2, 4, 8, 16}, `psort_partial` makes exactly one
kernel invocation; it is of the kernel instantiated for keys of
`8 * elem_size` bits, it receives the array, `len`, `num_threads`, `from` and
`to` exactly as the caller passed them, and what that kernel leaves in the
array is what the caller gets back. -/
theorem psort_partial_dispatch {Mem : Type} (K : Kernels Mem) (arr : Mem)
    (len elem_size num_threads from_ to_ : Int) (h : supported elem_size) :
    ( psort_partial K arr len elem_size num_threads from_ to_).calls
      = [{ suffix := (8 * elem_size).toNat, arr := arr, len := len,
           num_threads := num_threads, from_ := from_, to_ := to_ }] ∧
    ∃ kernel, kernel_of K (8 * elem_size).toNat = some kernel ∧
      ( psort_partial K arr len elem_size num_threads from_ to_).arr
        = kernel arr len num_threads from_ to_ := by
  rcases h with h | h | h | h <;> subst h
  · exact ⟨rfl, K.psort_partialsort_parallel_16, rfl, rfl⟩
  · exact ⟨rfl, K.psort_partialsort_parallel_32, rfl, rfl⟩
  · exact ⟨rfl, K.psort_partialsort_parallel_64, rfl, rfl⟩
  · exact ⟨rfl, K.psort_partialsort_parallel_128, rfl, rfl⟩

/-- An instance of C8: 64-bit keys, a range that is not valid for them, no
threads: all of it is forwarded as it is to the 64-bit kernel. -/
theorem psort_partial_dispatch_witness :
    supported 8 ∧
    ( psort_partial (radix_kernels 8) [5, 3, 1, 4, 2] 5 8 0 9 (-1)).calls
      = [{ suffix := (8 * (8 : Int)).toNat, arr := [5, 3, 1, 4, 2], len := 5,
           num_threads := 0, from_ := 9, to_ := -1 }] ∧
    ∃ kernel, kernel_of (radix_kernels 8) (8 * (8 : Int)).toNat = some kernel ∧
      ( psort_partial (radix_kernels 8) [5, 3, 1, 4, 2] 5 8 0 9 (-1)).arr
        = kernel [5, 3, 1, 4, 2] 5 0 9 (-1) :=
  ⟨by decide, psort_partial_dispatch (radix_kernels 8) [5, 3, 1, 4, 2] 5 8 0 9 (-1) (by decide)⟩

/-- C3: for `elem_size` in {2, 4, 8, 16}, an array of `len` keys,
`num_threads >= 1` and a byte range `0 <= from <= to`, `psort_partial` returns
0 and the array is then non-decreasing when keys are compared by their bytes
at the little-endian positions `from, ..., to - 1` only, byte `to - 1` most
significant.  `B`, the block size of the write buffer, is any size from 1 to
255, the values the 8-bit fill counter can reach.  The bound
`to <= elem_size` is not needed for this. -/
theorem psort_partial_sorted_over_range (B : Nat) (arr : List Nat)
    (len elem_size num_threads from_ to_ : Int) (hB0 : 0 < B) (hB : B < 256)
    (hes : supported elem_size) (hlen : (arr.length : Int) = len)
    (hnt : 1 ≤ num_threads) (hfrom : 0 ≤ from_) (hto : from_ ≤ to_) :
    ( psort_partial (radix_kernels B) arr len elem_size num_threads from_ to_).status = 0 ∧
    sorted_over from_.toNat to_.toNat
      ( psort_partial (radix_kernels B) arr len elem_size num_threads from_ to_).arr := by
  obtain ⟨h1, h2⟩ := radix_partial_outcome B arr len elem_size num_threads from_ to_ hes
  rw [h2]
  exact ⟨h1, kernel_sorted B arr len num_threads from_ to_ hB0 hB hnt hlen hfrom hto⟩

/-- The scenario of C3: four 16-bit keys sorted over byte 0 alone by one thread. -/
theorem psort_partial_sorted_over_range_witness :
    (0 < 8 ∧ 8 < 256 ∧ supported 2 ∧
      ((([0x0100, 0x0001, 0x0101, 0x0000] : List Nat).length : Int) = 4) ∧
      (1 : Int) ≤ 1 ∧ (0 : Int) ≤ 0 ∧ (0 : Int) ≤ 1) ∧
    ( psort_partial (radix_kernels 8) [0x0100, 0x0001, 0x0101, 0x0000] 4 2 1 0 1).status = 0 ∧
    sorted_over (0 : Int).toNat (1 : Int).toNat
      ( psort_partial (radix_kernels 8) [0x0100, 0x0001, 0x0101, 0x0000] 4 2 1 0 1).arr :=
  ⟨by decide,
    psort_partial_sorted_over_range 8 [0x0100, 0x0001, 0x0101, 0x0000] 4 2 1 0 1
      (by decide) (by decide) (by decide) (by decide) (by decide) (by decide) (by decide)⟩

/-- C4: for `elem_size` in {2, 4, 8, 16} and `num_threads >= 1`, the array
after `psort_full`, `psort_half` or `psort_partial` has the length of the array
before the call and holds every key value as many times as it did: whole keys
are moved.  `B` is any block size from 1 to 255; no condition on `len` or on
the byte range is needed for this. -/
theorem entry_points_permute (B : Nat) (arr : List Nat)
    (len elem_size num_threads from_ to_ : Int) (hB0 : 0 < B) (hB : B < 256)
    (hes : supported elem_size) (hnt : 1 ≤ num_threads) :
    ((psort_full (radix_kernels B) arr len elem_size num_threads).arr.length = arr.length ∧
      ∀ key, (psort_full (radix_kernels B) arr len elem_size num_threads).arr.count key
        = arr.count key) ∧
    ((psort_half (radix_kernels B) arr len elem_size num_threads).arr.length = arr.length ∧
      ∀ key, (psort_half (radix_kernels B) arr len elem_size num_threads).arr.count key
        = arr.count key) ∧
    (( psort_partial (radix_kernels B) arr len elem_size num_threads from_ to_).arr.length
        = arr.length ∧
      ∀ key,
        ( psort_partial (radix_kernels B) arr len elem_size num_threads from_ to_).arr.count key
          = arr.count key) := by
  rw [(radix_full_outcome B arr len elem_size num_threads hes).2,
    (radix_half_outcome B arr len elem_size num_threads hes).2,
    (radix_partial_outcome B arr len elem_size num_threads from_ to_ hes).2]
  have p1 := kernel_perm B arr len num_threads 0 elem_size hB0 hB hnt
  have p2 := kernel_perm B arr len num_threads 0 (Int.tdiv elem_size 2) hB0 hB hnt
  have p3 := kernel_perm B arr len num_threads from_ to_ hB0 hB hnt
  exact ⟨⟨p1.length_eq, fun k => p1.count_eq k⟩, ⟨p2.length_eq, fun k => p2.count_eq k⟩,
    ⟨p3.length_eq, fun k => p3.count_eq k⟩⟩

/-- An instance of C4: five 32-bit keys with a repeated one, three threads,
blocks of two keys, the partial sort over byte 1 alone. -/
theorem entry_points_permute_witness :
    (0 < 2 ∧ 2 < 256 ∧ supported 4 ∧ (1 : Int) ≤ 3) ∧
    ((psort_full (radix_kernels 2) [70000, 3, 70000, 258, 1] 5 4 3).arr.length
        = [70000, 3, 70000, 258, 1].length ∧
      ∀ key, (psort_full (radix_kernels 2) [70000, 3, 70000, 258, 1] 5 4 3).arr.count key
        = [70000, 3, 70000, 258, 1].count key) ∧
    ((psort_half (radix_kernels 2) [70000, 3, 70000, 258, 1] 5 4 3).arr.length
        = [70000, 3, 70000, 258, 1].length ∧
      ∀ key, (psort_half (radix_kernels 2) [70000, 3, 70000, 258, 1] 5 4 3).arr.count key
        = [70000, 3, 70000, 258, 1].count key) ∧
    (( psort_partial (radix_kernels 2) [70000, 3, 70000, 258, 1] 5 4 3 1 2).arr.length
        = [70000, 3, 70000, 258, 1].length ∧
      ∀ key,
        ( psort_partial (radix_kernels 2) [70000, 3, 70000, 258, 1] 5 4 3 1 2).arr.count key
          = [70000, 3, 70000, 258, 1].count key) :=
  ⟨by decide,
    entry_points_permute 2 [70000, 3, 70000, 258, 1] 5 4 3 1 2
      (by decide) (by decide) (by decide) (by decide)⟩

/-- C7: for `elem_size` in {2, 4, 8, 16}, an array of `len` keys that fit in
`elem_size` bytes and `num_threads >= 1`, `psort_full` returns 0 and the array
is then in non-decreasing order of the keys read as unsigned integers, for any
block size `B` from 1 to 255.  With the same block size and thread count the
16-bit array
`[0x0201, 0x0102, 0xFFFF, 0x0000]` becomes `[0x0000, 0x0102, 0x0201, 0xFFFF]`
and the 64-bit array `[5, 3, 1, 4, 2]` becomes `[1, 2, 3, 4, 5]`. -/
theorem psort_full_sorted_numerically (B : Nat) (arr : List Nat)
    (len elem_size num_threads : Int) (hB0 : 0 < B) (hB : B < 256)
    (hes : supported elem_size) (hlen : (arr.length : Int) = len)
    (hkeys : ∀ key ∈ arr, key < 256 ^ elem_size.toNat) (hnt : 1 ≤ num_threads) :
    ((psort_full (radix_kernels B) arr len elem_size num_threads).status = 0 ∧
      (psort_full (radix_kernels B) arr len elem_size num_threads).arr.Sorted (· ≤ ·)) ∧
    (psort_full (radix_kernels B) [0x0201, 0x0102, 0xFFFF, 0x0000] 4 2 num_threads).arr
      = [0x0000, 0x0102, 0x0201, 0xFFFF] ∧
    (psort_full (radix_kernels B) [5, 3, 1, 4, 2] 5 8 num_threads).arr = [1, 2, 3, 4, 5] := by
  refine ⟨⟨(radix_full_outcome B arr len elem_size num_threads hes).1,
    radix_full_sorted B arr len elem_size num_threads hB0 hB hes hlen hkeys hnt⟩, ?_, ?_⟩
  · have hs := radix_full_sorted B [0x0201, 0x0102, 0xFFFF, 0x0000] 4 2 num_threads hB0 hB
      (by decide) (by decide) (by decide) hnt
    have hp : (psort_full (radix_kernels B) [0x0201, 0x0102, 0xFFFF, 0x0000] 4 2
        num_threads).arr.Perm [0x0201, 0x0102, 0xFFFF, 0x0000] := by
      rw [(radix_full_outcome B _ 4 2 num_threads (by decide)).2]
      exact kernel_perm B _ 4 num_threads 0 2 hB0 hB hnt
    exact List.eq_of_perm_of_sorted (hp.trans (by decide)) hs (by decide)
  · have hs := radix_full_sorted B [5, 3, 1, 4, 2] 5 8 num_threads hB0 hB
      (by decide) (by decide) (by decide) hnt
    have hp : (psort_full (radix_kernels B) [5, 3, 1, 4, 2] 5 8
        num_threads).arr.Perm [5, 3, 1, 4, 2] := by
      rw [(radix_full_outcome B _ 5 8 num_threads (by decide)).2]
      exact kernel_perm B _ 5 num_threads 0 8 hB0 hB hnt
    exact List.eq_of_perm_of_sorted (hp.trans (by decide)) hs (by decide)

/-- The scenarios of C7 with blocks of eight keys and two threads. -/
theorem psort_full_sorted_numerically_witness :
    (0 < 8 ∧ 8 < 256 ∧ supported 8 ∧ ((([5, 3, 1, 4, 2] : List Nat).length : Int) = 5) ∧
      (∀ key ∈ ([5, 3, 1, 4, 2] : List Nat), key < 256 ^ (8 : Int).toNat) ∧
      (1 : Int) ≤ 2) ∧
    ((psort_full (radix_kernels 8) [5, 3, 1, 4, 2] 5 8 2).status = 0 ∧
      (psort_full (radix_kernels 8) [5, 3, 1, 4, 2] 5 8 2).arr.Sorted (· ≤ ·)) ∧
    (psort_full (radix_kernels 8) [0x0201, 0x0102, 0xFFFF, 0x0000] 4 2 2).arr
      = [0x0000, 0x0102, 0x0201, 0xFFFF] ∧
    (psort_full (radix_kernels 8) [5, 3, 1, 4, 2] 5 8 2).arr = [1, 2, 3, 4, 5] :=
  ⟨by decide,
    psort_full_sorted_numerically 8 [5, 3, 1, 4, 2] 5 8 2
      (by decide) (by decide) (by decide) (by decide) (by decide) (by decide)⟩

end Psort
